import Mathlib

/-!
Shallow embedding of the `package_common` repository (eigenmode post-processing,
Chebyshev/Heinrichs basis evaluation, background-field profiles and the
spectral-deformation complex coordinate), together with proofs settling the
specification claims about it.

Conventions used throughout:

* Finite IEEE doubles are modelled by exact rationals (`ℚ`) where the code only
  moves, compares and copies them (`utils_eig.py`), and by real numbers (`ℝ`)
  where the code evaluates transcendental functions (`calc_chebyshev.py`,
  `calc_heinrichs.py`, `spectral_deform.py`, `background_field.py`).
* A complex matrix is represented column-wise: `List (List Cplx)` is the list
  of its columns.  `numpy` eigenvector matrices store eigenvector `i` in
  column `i`, and `sort_eig` permutes whole columns, so this is the natural
  carrier for the sorting claims.
* The IEEE `nan` sentinel written by `screening_eig` is modelled by `none` in
  an `Option`-valued entry type.
* `sys.exit(1)` after `logger.error(...)` is modelled by an error value
  (`Except`-style error or an `err` flag) carrying no further computation.
* Python's `sorted` is a stable ascending sort; it is modelled by Mathlib's
  stable `List.insertionSort` (any two stable sorts of the same list under the
  same total preorder coincide).
-/

/-- Exact model of a `np.complex128` value (finite doubles are rationals). -/
structure Cplx where
  re : ℚ
  im : ℚ
deriving DecidableEq, Repr

/-- Source: `utils_eig.py`, `sort_eig`, lines 36-41.  Column `i` of the work
array `tmp`: the real parts of eigenvector `i`, then its imaginary parts, then
the real and imaginary part of eigenvalue `i`.  (`tmp` has dtype complex128;
every entry stored into it is real, so the entries are modelled by `ℚ`.) -/
def tmpColumn (col : List Cplx) (lam : Cplx) : List ℚ :=
  col.map Cplx.re ++ col.map Cplx.im ++ [lam.re, lam.im]

/-- Source: `utils_eig.py`, line 43: `sorted(tmp.T, key=lambda x: x[2*size_matrix])`.
The key is the complex scalar `tmp[2*size, i] = complex(eigenvalue_i.real, 0)`;
numpy orders complex scalars lexicographically by (real, imag), and the
imaginary slot of the key is always `0`, so the comparison is exactly the
order on the stored real part. -/
def tmpKeyLe (size : ℕ) (x y : List ℚ) : Prop :=
  x.getD (2 * size) 0 ≤ y.getD (2 * size) 0

instance (size : ℕ) : DecidableRel (tmpKeyLe size) := fun x y =>
  inferInstanceAs (Decidable (x.getD (2 * size) 0 ≤ y.getD (2 * size) 0))

/-- Source: `utils_eig.py`, `sort_eig`, lines 46-52: rebuild column `i` of
`matrix_eig` from sorted work column `c`: the eigenvector entries
`c[j] + i*c[size+j]` for `j < size`, then the eigenvalue
`c[2*size] + i*c[2*size+1]` in the last row. -/
def recombineColumn (size : ℕ) (c : List ℚ) : List Cplx :=
  (List.range size).map (fun j => ⟨c.getD j 0, c.getD (size + j) 0⟩)
    ++ [⟨c.getD (2 * size) 0, c.getD (2 * size + 1) 0⟩]

/-- Source: `utils_eig.py`, `sort_eig` (lines 34-54).  Builds the work array
`tmp` column by column, stably sorts its columns by the eigenvalue real part
stored at row `2*size`, and reassembles the `(size+1) × size` output matrix
(represented here as its list of columns). -/
def sort_eig (eigenvalues : List Cplx) (eigenvectors : List (List Cplx)) :
    List (List Cplx) :=
  let size := eigenvalues.length
  let tmp : List (List ℚ) :=
    (eigenvectors.zip eigenvalues).map fun p => tmpColumn p.1 p.2
  let tmpSorted : List (List ℚ) := tmp.insertionSort (tmpKeyLe size)
  tmpSorted.map (recombineColumn size)

/-- An input eigenpair: the eigenvector column together with its eigenvalue. -/
abbrev EigPair : Type := List Cplx × Cplx

/-- Comparison actually performed by `sort_eig` between two eigenpairs:
ordering of the eigenvalue real parts only. -/
def pairLe (p q : EigPair) : Prop :=
  p.2.re ≤ q.2.re

instance : DecidableRel pairLe := fun p q =>
  inferInstanceAs (Decidable (p.2.re ≤ q.2.re))

/-- Comparison described by the specification: lexicographic on
(real part, imaginary part) of the eigenvalue. -/
def pairLexLe (p q : EigPair) : Prop :=
  p.2.re < q.2.re ∨ (p.2.re = q.2.re ∧ p.2.im ≤ q.2.im)

instance : DecidableRel pairLexLe := fun p q =>
  inferInstanceAs (Decidable (p.2.re < q.2.re ∨ (p.2.re = q.2.re ∧ p.2.im ≤ q.2.im)))

/-- Output column of the eigenvalue matrix built from one eigenpair: the
eigenvector entries in rows `0..size-1` and the eigenvalue in row `size`. -/
def eigColumn (p : EigPair) : List Cplx :=
  p.1 ++ [p.2]

/-- Modelled from the spec: `sort_by_eigenvalue` as the specification words it,
namely a stable sort of the eigenpair columns keyed lexicographically by
(real part, imaginary part) of the eigenvalue.  This definition follows the
spec's description and exists only to be compared against `sort_eig`, which is
translated from the code. -/
def sort_eig_spec_lex (eigenvalues : List Cplx) (eigenvectors : List (List Cplx)) :
    List (List Cplx) :=
  ((eigenvectors.zip eigenvalues).insertionSort pairLexLe).map eigColumn

/-- Total preorder on input-position-tagged eigenpairs: by eigenvalue real
part, ties broken by the original input position.  Stable sorting by
`pairLe` is the same as sorting by this relation on the tagged list. -/
def taggedLe (a b : ℕ × EigPair) : Prop :=
  a.2.2.re < b.2.2.re ∨ (a.2.2.re = b.2.2.re ∧ a.1 ≤ b.1)

instance : DecidableRel taggedLe := fun a b =>
  inferInstanceAs (Decidable (a.2.2.re < b.2.2.re ∨ (a.2.2.re = b.2.2.re ∧ a.1 ≤ b.1)))

/-- Strict version of `taggedLe`: by eigenvalue real part, ties broken by
strictly smaller original input position.  A list that is sorted under this
relation and is a permutation of a tagged input is unique, so it
characterises the stable sort independently of any implementation. -/
def taggedLt (a b : ℕ × EigPair) : Prop :=
  a.2.2.re < b.2.2.re ∨ (a.2.2.re = b.2.2.re ∧ a.1 < b.1)

/-- Result of `screening_eig`: whether the function aborted
(`logger.error` followed by `sys.exit(1)`), and the state of the two array
arguments when the function returned or aborted. -/
structure ScreenResult where
  err : Bool
  matrix_eig : List (List (Option Cplx))
  phys_qtys : List (List (Option ℚ))
deriving DecidableEq, Repr

/-- Source: `utils_eig.py`, lines 109-111: within one row of `matrix_eig`,
entry `i` is overwritten with the nan sentinel when `check[i]` is false. -/
def maskRow (check : List Bool) (row : List (Option Cplx)) : List (Option Cplx) :=
  row.mapIdx fun i x => if check.getD i true then x else none

/-- Source: `utils_eig.py`, lines 113-114: entry `i` of a physical-quantity
array is overwritten with the nan sentinel when `check[i]` is false. -/
def maskQty (check : List Bool) (q : List (Option ℚ)) : List (Option ℚ) :=
  q.mapIdx fun i x => if check.getD i true then x else none

/-- Source: `utils_eig.py`, `screening_eig` (lines 93-118).  `size_mat` is the
column count `matrix_eig.shape[1]`; the shape checks on `matrix_eig`, `check`
and every physical-quantity array run before any write, and the overwriting
loop runs only if all of them pass. -/
def screening_eig (matrix_eig : List (List (Option Cplx))) (check : List Bool)
    (phys_qtys : List (List (Option ℚ))) : ScreenResult :=
  let size_mat := (matrix_eig.headD []).length
  if matrix_eig.length ≠ size_mat + 1 ∨ check.length ≠ size_mat then
    ⟨true, matrix_eig, phys_qtys⟩
  else if phys_qtys.any fun q => decide (q.length ≠ size_mat) then
    ⟨true, matrix_eig, phys_qtys⟩
  else
    ⟨false, matrix_eig.map (maskRow check), phys_qtys.map (maskQty check)⟩

/-- Source: `calc_chebyshev.py`, `chebyshev` (line 37):
`np.cos(n_degree * np.acos(s_pos))`, on real arguments. -/
noncomputable def chebyshev (n_degree : ℕ) (s_pos : ℝ) : ℝ :=
  Real.cos (n_degree * Real.arccos s_pos)

/-- Source: `calc_chebyshev.py`, `chebyshev_d` (lines 65-66):
`n * np.sin(n*t) / np.sin(t)` with `t = np.acos(s_pos)`.  When `sin t = 0`
the floating-point code divides by zero and produces a nan, modelled by
`none`. -/
noncomputable def chebyshev_d (n_degree : ℕ) (s_pos : ℝ) : Option ℝ :=
  let t := Real.arccos s_pos
  if Real.sin t = 0 then none
  else some (n_degree * Real.sin (n_degree * t) / Real.sin t)

/-- Source: `calc_heinrichs.py`, `heinrichs` (line 38):
`(1 - s_pos**2) * chebyshev(n_degree, s_pos)`. -/
noncomputable def heinrichs (n_degree : ℕ) (s_pos : ℝ) : ℝ :=
  (1 - s_pos ^ 2) * chebyshev n_degree s_pos

/-- Source: `calc_heinrichs.py`, `heinrichs_d` (lines 66-69):
`(1 - s_pos**2) * chebyshev_d(n, s) - 2 * s_pos * chebyshev(n, s)`.
A nan produced by `chebyshev_d` propagates through the arithmetic
(`0 * nan = nan` in IEEE arithmetic), modelled by `Option.map`. -/
noncomputable def heinrichs_d (n_degree : ℕ) (s_pos : ℝ) : Option ℝ :=
  (chebyshev_d n_degree s_pos).map fun cd =>
    (1 - s_pos ^ 2) * cd - 2 * s_pos * chebyshev n_degree s_pos

/-- A Python value passed as the argument of `r_value`/`r_value_d`/`r_value_d2`.
`bool` is kept separate because in Python it is a subclass of `int`. -/
inductive PyValue where
  | pfloat (x : ℝ)
  | pint (n : ℤ)
  | pbool (b : Bool)
  | pcomplex (re im : ℝ)

/-- Source: `background_field.py`, lines 99, 150, 202:
`isinstance(x, (float, int))`.  Python `bool` is a subclass of `int`, so it
passes the check; `complex` is not, so it fails even with zero imaginary
part. -/
def PyValue.isRealNumber : PyValue → Bool
  | .pfloat _ => true
  | .pint _ => true
  | .pbool _ => true
  | .pcomplex _ _ => false

/-- Value of `complex(x, 0)` for an argument that passed the `isinstance`
check; `bool` is promoted to `0` or `1`.  (The `pcomplex` branch is never
reached by the accessors, which reject complex arguments first.) -/
def PyValue.toComplex : PyValue → ℂ
  | .pfloat x => (x : ℂ)
  | .pint n => (n : ℂ)
  | .pbool b => if b then 1 else 0
  | .pcomplex a b => ⟨a, b⟩

/-- The two `logger.error` + `sys.exit(1)` abort sites of `background_field.py`:
`'Invalid type of the argument.'` and `'This attribute has not been set.'`. -/
inductive FieldError where
  | invalidArgumentType
  | attributeNotSet
deriving DecidableEq, Repr

/-- Source: `background_field.py`, class `BackgroundField` (lines 41-75).
`value_d` and `value_d2` model the private optional attributes
`__value_d` and `__value_d2`. -/
structure BackgroundField where
  name : String
  value : ℂ → ℂ
  value_d : Option (ℂ → ℂ)
  value_d2 : Option (ℂ → ℂ)
  tex : String

/-- Source: `background_field.py`, `__init__` (lines 41-75): `tex` defaults to
`name` when not supplied. -/
def mkBackgroundField (name : String) (value : ℂ → ℂ)
    (value_d value_d2 : Option (ℂ → ℂ)) (tex : Option String) : BackgroundField :=
  ⟨name, value, value_d, value_d2, tex.getD name⟩

/-- Source: `background_field.py`, property `value_d` (lines 105-125): returns
the stored first derivative, or aborts when it was never set. -/
def BackgroundField.value_d_prop (f : BackgroundField) : Except FieldError (ℂ → ℂ) :=
  match f.value_d with
  | some g => .ok g
  | none => .error .attributeNotSet

/-- Source: `background_field.py`, property `value_d2` (lines 156-177). -/
def BackgroundField.value_d2_prop (f : BackgroundField) : Except FieldError (ℂ → ℂ) :=
  match f.value_d2 with
  | some g => .ok g
  | none => .error .attributeNotSet

/-- Source: `background_field.py`, `r_value` (lines 77-103): reject non-real
arguments, then return `self.value(complex(x, 0)).real`. -/
def BackgroundField.r_value (f : BackgroundField) (x : PyValue) : Except FieldError ℝ :=
  if x.isRealNumber then .ok (f.value x.toComplex).re
  else .error .invalidArgumentType

/-- Source: `background_field.py`, `r_value_d` (lines 127-154): the
`isinstance` check runs first, then the `value_d` property (which aborts when
the attribute is unset), then the evaluation. -/
def BackgroundField.r_value_d (f : BackgroundField) (x : PyValue) : Except FieldError ℝ :=
  if x.isRealNumber then f.value_d_prop.map fun g => (g x.toComplex).re
  else .error .invalidArgumentType

/-- Source: `background_field.py`, `r_value_d2` (lines 179-206). -/
def BackgroundField.r_value_d2 (f : BackgroundField) (x : PyValue) : Except FieldError ℝ :=
  if x.isRealNumber then f.value_d2_prop.map fun g => (g x.toComplex).re
  else .error .invalidArgumentType

/-- Source: `spectral_deform.py`, class `ComplexCoordinate` (lines 18-74):
a `BackgroundField` together with the parameter mapping `params`. -/
structure ComplexCoordinate extends BackgroundField where
  params : List (String × ℝ)

/-- Source: `spectral_deform.py`, `y_complex` (lines 116-120). -/
noncomputable def y_complex (y_start y_end alpha beta_0 beta_1 : ℝ) (s_pos : ℂ) : ℂ :=
  y_start + (y_end - y_start) * (s_pos + 1) / 2
    - (alpha + Complex.I) * (beta_0 + beta_1 * s_pos) * (s_pos ^ 2 - 1)

/-- Source: `spectral_deform.py`, `y_complex_d` (lines 122-126). -/
noncomputable def y_complex_d (y_start y_end alpha beta_0 beta_1 : ℝ) (s_pos : ℂ) : ℂ :=
  (y_end - y_start) / 2
    - (alpha + Complex.I) * (beta_1 * (3 * s_pos ^ 2 - 1) + 2 * beta_0 * s_pos)

/-- Source: `spectral_deform.py`, `y_complex_d2` (lines 128-131). -/
noncomputable def y_complex_d2 (y_start y_end alpha beta_0 beta_1 : ℝ) (s_pos : ℂ) : ℂ :=
  -2 * (alpha + Complex.I) * (3 * beta_1 * s_pos + beta_0)

/-- Source: `spectral_deform.py`, `init_complex_coordinate` (lines 77-137).
The Python `name` interpolates the parameter values into a string; the string
itself is immaterial to every claim, so a fixed placeholder is used. -/
noncomputable def init_complex_coordinate (y_start y_end alpha beta_0 beta_1 : ℝ) : ComplexCoordinate :=
  { name := "[a_b_b_]"
    value := y_complex y_start y_end alpha beta_0 beta_1
    value_d := some (y_complex_d y_start y_end alpha beta_0 beta_1)
    value_d2 := some (y_complex_d2 y_start y_end alpha beta_0 beta_1)
    tex := "[a_b_b_]"
    params := [("alpha", alpha), ("beta_0", beta_0), ("beta_1", beta_1)] }

/-- Source: `spectral_deform.py`, `check_spectral_deform` (lines 140-164):
scan the parameter mapping and report whether any value is nonzero. -/
noncomputable def check_spectral_deform (complex_coordinate : ComplexCoordinate) : Bool :=
  complex_coordinate.params.any fun p => decide (p.2 ≠ 0)

instance : IsTotal EigPair pairLe :=
  ⟨fun p q => le_total p.2.re q.2.re⟩

instance : IsTrans EigPair pairLe :=
  ⟨fun _ _ _ h h' => le_trans h h'⟩

instance : IsTotal (ℕ × EigPair) taggedLe := by
  constructor
  intro a b
  rcases lt_trichotomy a.2.2.re b.2.2.re with h | h | h
  · exact Or.inl (Or.inl h)
  · rcases Nat.le_total a.1 b.1 with h' | h'
    · exact Or.inl (Or.inr ⟨h, h'⟩)
    · exact Or.inr (Or.inr ⟨h.symm, h'⟩)
  · exact Or.inr (Or.inl h)

instance : IsTrans (ℕ × EigPair) taggedLe := by
  constructor
  intro a b c hab hbc
  rcases hab with hab | ⟨hab, hab'⟩
  · rcases hbc with hbc | ⟨hbc, _⟩
    · exact Or.inl (hab.trans hbc)
    · exact Or.inl (hbc ▸ hab)
  · rcases hbc with hbc | ⟨hbc, hbc'⟩
    · exact Or.inl (hab ▸ hbc)
    · exact Or.inr ⟨hab.trans hbc, hab'.trans hbc'⟩

theorem tmpColumn_length (col : List Cplx) (lam : Cplx) :
    (tmpColumn col lam).length = 2 * col.length + 2 := by
  simp [tmpColumn]
  ring

theorem tmpColumn_getD_key {size : ℕ} {col : List Cplx} (lam : Cplx)
    (h : col.length = size) :
    (tmpColumn col lam).getD (2 * size) 0 = lam.re := by
  have h1 : (col.map Cplx.re).length ≤ 2 * size := by
    simp [h]; omega
  have h2 : (col.map Cplx.im).length ≤ 2 * size - (col.map Cplx.re).length := by
    simp [h]; omega
  rw [tmpColumn, List.append_assoc, List.getD_append_right _ _ _ _ h1,
    List.getD_append_right _ _ _ _ h2]
  simp [h]
  rw [show 2 * size - size - size = 0 by omega]
  rfl

theorem recombineColumn_tmpColumn {size : ℕ} {col : List Cplx} (lam : Cplx)
    (h : col.length = size) :
    recombineColumn size (tmpColumn col lam) = col ++ [lam] := by
  unfold recombineColumn
  congr 1
  · apply List.ext_getElem
    · simp [h]
    · intro n h1 h2
      have hn : n < size := by simpa using h1
      have hre : (tmpColumn col lam).getD n 0 = col[n].re := by
        rw [tmpColumn, List.getD_append _ _ _ _ (by simp [h]; omega),
          List.getD_append _ _ _ _ (by simp only [List.length_map]; omega),
          List.getD_eq_getElem _ _ (by simp only [List.length_map]; omega)]
        simp
      have him : (tmpColumn col lam).getD (size + n) 0 = col[n].im := by
        rw [tmpColumn, List.getD_append _ _ _ _ (by simp [h]; omega),
          List.getD_append_right _ _ _ _ (by simp [h] :
            (List.map Cplx.re col).length ≤ size + n)]
        simp only [List.length_map, h]
        rw [show size + n - size = n by omega,
          List.getD_eq_getElem _ _ (by simp only [List.length_map]; omega)]
        simp
      simp only [List.getElem_map, List.getElem_range]
      rw [hre, him]
  · have hkre : (tmpColumn col lam).getD (2 * size) 0 = lam.re :=
      tmpColumn_getD_key lam h
    have hkim : (tmpColumn col lam).getD (2 * size + 1) 0 = lam.im := by
      rw [tmpColumn, List.append_assoc,
        List.getD_append_right _ _ _ _ (by simp [h]; omega :
          (List.map Cplx.re col).length ≤ 2 * size + 1),
        List.getD_append_right _ _ _ _ (by simp [h]; omega :
          (List.map Cplx.im col).length ≤ 2 * size + 1 - (List.map Cplx.re col).length)]
      simp [h]
      rw [show 2 * size + 1 - size - size = 1 by omega]
      rfl
    rw [hkre, hkim]

theorem sort_eig_eq_insertionSort {eigenvalues : List Cplx}
    {eigenvectors : List (List Cplx)}
    (hlen : eigenvectors.length = eigenvalues.length)
    (hcols : ∀ c ∈ eigenvectors, c.length = eigenvalues.length) :
    sort_eig eigenvalues eigenvectors
      = ((eigenvectors.zip eigenvalues).insertionSort pairLe).map eigColumn := by
  simp only [sort_eig]
  have hmem : ∀ p ∈ eigenvectors.zip eigenvalues, p.1.length = eigenvalues.length := by
    intro p hp
    rcases p with ⟨c, lam⟩
    exact hcols c (List.of_mem_zip hp).1
  have hcorr : ∀ a ∈ eigenvectors.zip eigenvalues, ∀ b ∈ eigenvectors.zip eigenvalues,
      pairLe a b ↔ tmpKeyLe eigenvalues.length (tmpColumn a.1 a.2) (tmpColumn b.1 b.2) := by
    intro a ha b hb
    unfold pairLe tmpKeyLe
    rw [tmpColumn_getD_key a.2 (hmem a ha), tmpColumn_getD_key b.2 (hmem b hb)]
  have hms := List.map_insertionSort pairLe (tmpKeyLe eigenvalues.length)
    (fun p : EigPair => tmpColumn p.1 p.2) (eigenvectors.zip eigenvalues) hcorr
  rw [← hms, List.map_map]
  apply List.map_congr_left
  intro p hp
  have hp' : p ∈ eigenvectors.zip eigenvalues := (List.mem_insertionSort pairLe).1 hp
  simp only [Function.comp_apply]
  rw [recombineColumn_tmpColumn p.2 (hmem p hp')]
  rfl

theorem map_snd_orderedInsert (n : ℕ) (a : EigPair) :
    ∀ (u : List (ℕ × EigPair)), (∀ x ∈ u, n < x.1) →
      (List.orderedInsert taggedLe (n, a) u).map Prod.snd
        = List.orderedInsert pairLe a (u.map Prod.snd)
  | [], _ => rfl
  | b :: u, hu => by
    have hb : n < b.1 := hu b (List.mem_cons_self b u)
    by_cases h : pairLe a b.2
    · have ht : taggedLe (n, a) b := by
        rcases lt_or_eq_of_le h with h' | h'
        · exact Or.inl h'
        · exact Or.inr ⟨h', Nat.le_of_lt hb⟩
      simp only [List.orderedInsert]
      rw [if_pos ht, if_pos h]
      rfl
    · have ht : ¬ taggedLe (n, a) b := by
        intro hcon
        rcases hcon with h' | ⟨h', _⟩
        · exact h (le_of_lt h')
        · exact h (le_of_eq h')
      simp only [List.orderedInsert]
      rw [if_neg ht, if_neg h]
      have hrec := map_snd_orderedInsert n a u fun x hx => hu x (List.mem_cons_of_mem b hx)
      simp only [List.map_cons, hrec]

theorem map_snd_insertionSort_enumFrom :
    ∀ (l : List EigPair) (n : ℕ),
      ((List.enumFrom n l).insertionSort taggedLe).map Prod.snd
        = l.insertionSort pairLe
  | [], _ => rfl
  | a :: l, n => by
    rw [List.enumFrom_cons, List.insertionSort, List.insertionSort]
    have hside : ∀ x ∈ (List.enumFrom (n + 1) l).insertionSort taggedLe, n < x.1 := by
      intro x hx
      have hx' : x ∈ List.enumFrom (n + 1) l := (List.mem_insertionSort taggedLe).1 hx
      rcases x with ⟨i, p⟩
      exact Nat.lt_of_lt_of_le (Nat.lt_succ_self n) (List.mem_enumFrom hx').1
    rw [map_snd_orderedInsert n a _ hside, map_snd_insertionSort_enumFrom l (n + 1)]

theorem sort_eig_tagged_char {eigenvalues : List Cplx}
    {eigenvectors : List (List Cplx)}
    (hlen : eigenvectors.length = eigenvalues.length)
    (hcols : ∀ c ∈ eigenvectors, c.length = eigenvalues.length) :
    ∃ u : List (ℕ × EigPair),
      u.Perm (eigenvectors.zip eigenvalues).enum
        ∧ u.Pairwise taggedLt
        ∧ sort_eig eigenvalues eigenvectors = u.map fun p => eigColumn p.2 := by
  refine ⟨((eigenvectors.zip eigenvalues).enum).insertionSort taggedLe,
    List.perm_insertionSort _ _, ?_, ?_⟩
  · have hs : ((List.enum (eigenvectors.zip eigenvalues)).insertionSort taggedLe).Pairwise
        taggedLe := List.sorted_insertionSort taggedLe _
    have hfst : (((List.enum (eigenvectors.zip eigenvalues)).insertionSort
        taggedLe).map Prod.fst).Nodup := by
      have hperm := (List.perm_insertionSort taggedLe
        (List.enum (eigenvectors.zip eigenvalues))).map Prod.fst
      rw [List.enum_map_fst] at hperm
      exact hperm.nodup_iff.2 (List.nodup_range _)
    have hne := List.pairwise_map.1
      (hfst : List.Pairwise (fun a b => a ≠ b)
        (((List.enum (eigenvectors.zip eigenvalues)).insertionSort
          taggedLe).map Prod.fst))
    refine (hs.and hne).imp ?_
    intro a b hab
    rcases hab with ⟨hle | ⟨heq, hle⟩, hne'⟩
    · exact Or.inl hle
    · exact Or.inr ⟨heq, lt_of_le_of_ne hle hne'⟩
  · rw [sort_eig_eq_insertionSort hlen hcols,
      show List.enum (eigenvectors.zip eigenvalues)
        = List.enumFrom 0 (eigenvectors.zip eigenvalues) from rfl,
      ← map_snd_insertionSort_enumFrom (eigenvectors.zip eigenvalues) 0,
      List.map_map]
    rfl

/-- Claim C1, counterexample.  At eigenvalues `[1+2i, 1+1i]` with the identity
eigenvector matrix, `sort_eig` leaves the columns in input order (the real
parts tie and the sort is stable over the real part only), whereas the claimed
lexicographic (real, imaginary) key would put `1+1i` first: the code's output
differs from the spec-modelled stable lexicographic sort. -/
theorem C1_counterexample :
    sort_eig [⟨1, 2⟩, ⟨1, 1⟩] [[⟨1, 0⟩, ⟨0, 0⟩], [⟨0, 0⟩, ⟨1, 0⟩]]
        = [[⟨1, 0⟩, ⟨0, 0⟩, ⟨1, 2⟩], [⟨0, 0⟩, ⟨1, 0⟩, ⟨1, 1⟩]]
      ∧ sort_eig_spec_lex [⟨1, 2⟩, ⟨1, 1⟩] [[⟨1, 0⟩, ⟨0, 0⟩], [⟨0, 0⟩, ⟨1, 0⟩]]
        = [[⟨0, 0⟩, ⟨1, 0⟩, ⟨1, 1⟩], [⟨1, 0⟩, ⟨0, 0⟩, ⟨1, 2⟩]]
      ∧ sort_eig [⟨1, 2⟩, ⟨1, 1⟩] [[⟨1, 0⟩, ⟨0, 0⟩], [⟨0, 0⟩, ⟨1, 0⟩]]
          ≠ sort_eig_spec_lex [⟨1, 2⟩, ⟨1, 1⟩] [[⟨1, 0⟩, ⟨0, 0⟩], [⟨0, 0⟩, ⟨1, 0⟩]] := by
  refine ⟨by decide, by decide, by decide⟩

/-- Claim C1, amended.  For every well-shaped input, `sort_eig` returns the
`(size+1, size)` matrix whose columns are the input eigenpairs (eigenvector
entries in rows `0..size-1`, eigenvalue in row `size`) permuted into ascending
order keyed by the real part of the eigenvalue only; ties in the real part,
regardless of the imaginary parts, preserve the relative input order.  This is
expressed by exhibiting the position-tagged output list: a permutation of the
tagged input eigenpairs that is sorted under the strict key
(real part, original position). -/
theorem C1_sort_eig_stable_sort_by_real_part
    (eigenvalues : List Cplx) (eigenvectors : List (List Cplx))
    (hlen : eigenvectors.length = eigenvalues.length)
    (hcols : ∀ c ∈ eigenvectors, c.length = eigenvalues.length) :
    (sort_eig eigenvalues eigenvectors).length = eigenvalues.length
      ∧ (∀ col ∈ sort_eig eigenvalues eigenvectors, col.length = eigenvalues.length + 1)
      ∧ ∃ u : List (ℕ × EigPair),
          u.Perm (eigenvectors.zip eigenvalues).enum
            ∧ u.Pairwise taggedLt
            ∧ sort_eig eigenvalues eigenvectors = u.map fun p => eigColumn p.2 := by
  obtain ⟨u, hperm, hsorted, heq⟩ := sort_eig_tagged_char hlen hcols
  have hzl : (eigenvectors.zip eigenvalues).length = eigenvalues.length := by
    rw [List.length_zip, hlen, min_self]
  have hul : u.length = eigenvalues.length := by
    rw [hperm.length_eq, List.enum_length, hzl]
  refine ⟨?_, ?_, u, hperm, hsorted, heq⟩
  · rw [heq, List.length_map, hul]
  · intro col hcol
    rw [heq] at hcol
    obtain ⟨p, hp, hpc⟩ := List.mem_map.1 hcol
    have hp' : p ∈ (eigenvectors.zip eigenvalues).enum := hperm.mem_iff.1 hp
    have hp'' := List.mem_enumFrom (x := p.2) (i := p.1) (j := 0) hp'
    have hk : p.1 < (eigenvectors.zip eigenvalues).length := by
      have := hp''.2.1
      omega
    have hq : p.2 = (eigenvectors.zip eigenvalues)[p.1] := by
      have := hp''.2.2
      simpa using this
    have hvec : p.2.1 ∈ eigenvectors := by
      have hk1 : p.1 < eigenvectors.length := by rw [hlen, ← hzl]; exact hk
      have hk2 : p.1 < eigenvalues.length := by rw [← hzl]; exact hk
      rw [hq, List.getElem_zip]
      exact List.getElem_mem hk1
    rw [← hpc]
    simp [eigColumn, hcols p.2.1 hvec]

/-- Concrete instantiation of `C1_sort_eig_stable_sort_by_real_part` at a
two-mode input with tied real parts, discharging its shape hypotheses. -/
theorem C1_sort_eig_stable_sort_by_real_part_witness :
    (([[⟨1, 0⟩, ⟨0, 0⟩], [⟨0, 0⟩, ⟨1, 0⟩]] : List (List Cplx)).length
        = ([⟨1, 2⟩, ⟨1, 1⟩] : List Cplx).length)
      ∧ (∀ c ∈ ([[⟨1, 0⟩, ⟨0, 0⟩], [⟨0, 0⟩, ⟨1, 0⟩]] : List (List Cplx)),
          c.length = ([⟨1, 2⟩, ⟨1, 1⟩] : List Cplx).length)
      ∧ ((sort_eig [⟨1, 2⟩, ⟨1, 1⟩] [[⟨1, 0⟩, ⟨0, 0⟩], [⟨0, 0⟩, ⟨1, 0⟩]]).length
            = ([⟨1, 2⟩, ⟨1, 1⟩] : List Cplx).length
          ∧ (∀ col ∈ sort_eig [⟨1, 2⟩, ⟨1, 1⟩] [[⟨1, 0⟩, ⟨0, 0⟩], [⟨0, 0⟩, ⟨1, 0⟩]],
              col.length = ([⟨1, 2⟩, ⟨1, 1⟩] : List Cplx).length + 1)
          ∧ ∃ u : List (ℕ × EigPair),
              u.Perm (([[⟨1, 0⟩, ⟨0, 0⟩], [⟨0, 0⟩, ⟨1, 0⟩]] : List (List Cplx)).zip
                  [⟨1, 2⟩, ⟨1, 1⟩]).enum
                ∧ u.Pairwise taggedLt
                ∧ sort_eig [⟨1, 2⟩, ⟨1, 1⟩] [[⟨1, 0⟩, ⟨0, 0⟩], [⟨0, 0⟩, ⟨1, 0⟩]]
                    = u.map fun p => eigColumn p.2) :=
  ⟨by decide, by decide,
    C1_sort_eig_stable_sort_by_real_part [⟨1, 2⟩, ⟨1, 1⟩]
      [[⟨1, 0⟩, ⟨0, 0⟩], [⟨0, 0⟩, ⟨1, 0⟩]] (by decide) (by decide)⟩

/-- Claim C3, counterexample.  Shuffling the columns of an input whose two
eigenvalues share a real part (here `0+1i` and `0+2i`) changes the output:
`sort_eig` is stable over the real part only, so both inputs keep their own
column order and the two outputs differ.  The claimed canonicality under
column permutation is therefore false. -/
theorem C3_counterexample :
    (([[⟨0, 0⟩, ⟨1, 0⟩], [⟨1, 0⟩, ⟨0, 0⟩]] : List (List Cplx)).zip
        ([⟨0, 2⟩, ⟨0, 1⟩] : List Cplx)).Perm
      (([[⟨1, 0⟩, ⟨0, 0⟩], [⟨0, 0⟩, ⟨1, 0⟩]] : List (List Cplx)).zip
        ([⟨0, 1⟩, ⟨0, 2⟩] : List Cplx))
      ∧ sort_eig [⟨0, 2⟩, ⟨0, 1⟩] [[⟨0, 0⟩, ⟨1, 0⟩], [⟨1, 0⟩, ⟨0, 0⟩]]
          ≠ sort_eig [⟨0, 1⟩, ⟨0, 2⟩] [[⟨1, 0⟩, ⟨0, 0⟩], [⟨0, 0⟩, ⟨1, 0⟩]] := by
  refine ⟨by decide, by decide⟩

/-- Claim C3, amended.  `sort_eig` is idempotent: eigenpairs already sorted by
the real part of the eigenvalue are returned unchanged (assembled into the
eigenvalue matrix in input order).  Sorting is canonical under column
permutation whenever the eigenvalue real parts are pairwise distinct: two
inputs whose eigenpair columns are permutations of each other then produce the
identical output matrix.  (With ties in the real part, canonicality fails, as
the counterexample shows.) -/
theorem C3_sort_eig_idempotent_and_canonical
    (ev ev' : List Cplx) (evec evec' : List (List Cplx))
    (h1 : evec.length = ev.length) (h2 : ∀ c ∈ evec, c.length = ev.length)
    (h1' : evec'.length = ev'.length) (h2' : ∀ c ∈ evec', c.length = ev'.length) :
    (List.Sorted (fun a b : Cplx => a.re ≤ b.re) ev →
        sort_eig ev evec = (evec.zip ev).map eigColumn)
      ∧ ((evec'.zip ev').Perm (evec.zip ev) → (ev.map Cplx.re).Nodup →
          sort_eig ev' evec' = sort_eig ev evec) := by
  constructor
  · intro hsort
    rw [sort_eig_eq_insertionSort h1 h2]
    congr 1
    apply List.Sorted.insertionSort_eq
    have hzs : (evec.zip ev).map Prod.snd = ev := List.map_snd_zip _ _ h1.ge
    rw [← hzs] at hsort
    have hsort2 := List.pairwise_map.1 hsort
    exact hsort2
  · intro hperm hnodup
    rw [sort_eig_eq_insertionSort h1 h2, sort_eig_eq_insertionSort h1' h2']
    congr 1
    have hp : ((evec'.zip ev').insertionSort pairLe).Perm
        ((evec.zip ev).insertionSort pairLe) :=
      ((List.perm_insertionSort _ _).trans hperm).trans (List.perm_insertionSort _ _).symm
    have hkeyzip : (evec.zip ev).map (fun p : EigPair => p.2.re) = ev.map Cplx.re := by
      rw [show (fun p : EigPair => p.2.re) = Cplx.re ∘ Prod.snd from rfl,
        ← List.map_map, List.map_snd_zip _ _ h1.ge]
    have hk1 : (((evec.zip ev).insertionSort pairLe).map
        (fun p : EigPair => p.2.re)).Nodup := by
      have := (List.perm_insertionSort pairLe (evec.zip ev)).map
        (fun p : EigPair => p.2.re)
      rw [hkeyzip] at this
      exact this.nodup_iff.2 hnodup
    have hk2 : (((evec'.zip ev').insertionSort pairLe).map
        (fun p : EigPair => p.2.re)).Nodup := by
      have := hp.map (fun p : EigPair => p.2.re)
      exact this.nodup_iff.2 hk1
    have hstrict : ∀ (s : List EigPair),
        s.Pairwise pairLe → (s.map (fun p : EigPair => p.2.re)).Nodup →
        s.Pairwise fun p q : EigPair => p.2.re < q.2.re := by
      intro s hs hnd
      have hne := List.pairwise_map.1
        (hnd : List.Pairwise (fun a b => a ≠ b) (s.map fun p : EigPair => p.2.re))
      exact (hs.and hne).imp fun h => lt_of_le_of_ne h.1 h.2
    have hs1 := hstrict _ (List.sorted_insertionSort pairLe (evec.zip ev)) hk1
    have hs2 := hstrict _ (List.sorted_insertionSort pairLe (evec'.zip ev')) hk2
    haveI : IsAntisymm EigPair fun p q : EigPair => p.2.re < q.2.re :=
      ⟨fun _ _ h h' => absurd h' (lt_asymm h)⟩
    exact List.eq_of_perm_of_sorted hp hs2 hs1

/-- Concrete instantiation of `C3_sort_eig_idempotent_and_canonical` at a
two-mode input with distinct real parts, discharging every hypothesis of both
parts. -/
theorem C3_sort_eig_idempotent_and_canonical_witness :
    sort_eig [⟨1, 5⟩, ⟨2, 3⟩] [[⟨1, 0⟩, ⟨0, 0⟩], [⟨0, 0⟩, ⟨1, 0⟩]]
        = ((([[⟨1, 0⟩, ⟨0, 0⟩], [⟨0, 0⟩, ⟨1, 0⟩]] : List (List Cplx)).zip
            ([⟨1, 5⟩, ⟨2, 3⟩] : List Cplx)).map eigColumn)
      ∧ sort_eig [⟨2, 3⟩, ⟨1, 5⟩] [[⟨0, 0⟩, ⟨1, 0⟩], [⟨1, 0⟩, ⟨0, 0⟩]]
          = sort_eig [⟨1, 5⟩, ⟨2, 3⟩] [[⟨1, 0⟩, ⟨0, 0⟩], [⟨0, 0⟩, ⟨1, 0⟩]] := by
  have h := C3_sort_eig_idempotent_and_canonical
    [⟨1, 5⟩, ⟨2, 3⟩] [⟨2, 3⟩, ⟨1, 5⟩]
    [[⟨1, 0⟩, ⟨0, 0⟩], [⟨0, 0⟩, ⟨1, 0⟩]] [[⟨0, 0⟩, ⟨1, 0⟩], [⟨1, 0⟩, ⟨0, 0⟩]]
    (by decide) (by decide) (by decide) (by decide)
  exact ⟨h.1 (by decide), h.2 (by decide) (by decide)⟩

/-- Claim C6.  `sort_eig` preserves the eigenvalue-eigenvector pairing: for
every well-shaped input there is a single bijection of mode indices such that
column `i` of the output holds, in rows `0..size-1`, exactly the input
eigenvector that was paired with the eigenvalue now stored in row `size` of
column `i`. -/
theorem C6_sort_eig_preserves_pairing
    (eigenvalues : List Cplx) (eigenvectors : List (List Cplx))
    (hlen : eigenvectors.length = eigenvalues.length)
    (hcols : ∀ c ∈ eigenvectors, c.length = eigenvalues.length) :
    ∃ σ : Fin eigenvalues.length → Fin eigenvalues.length,
      Function.Bijective σ
        ∧ ∀ i : Fin eigenvalues.length,
            (sort_eig eigenvalues eigenvectors).getD i []
              = eigenvectors.getD (σ i) [] ++ [eigenvalues.getD (σ i) ⟨0, 0⟩] := by
  obtain ⟨u, hperm, _, heq⟩ := sort_eig_tagged_char hlen hcols
  have hzl : (eigenvectors.zip eigenvalues).length = eigenvalues.length := by
    rw [List.length_zip, hlen, min_self]
  have hul : u.length = eigenvalues.length := by
    rw [hperm.length_eq, List.enum_length, hzl]
  have hiu : ∀ i : Fin eigenvalues.length, (i : ℕ) < u.length := fun i => by
    rw [hul]; exact i.2
  have key : ∀ (i : ℕ) (h : i < u.length),
      (u[i]).1 < eigenvalues.length
        ∧ (u[i]).2.1 = eigenvectors.getD (u[i]).1 []
        ∧ (u[i]).2.2 = eigenvalues.getD (u[i]).1 ⟨0, 0⟩ := by
    intro i h
    have hm : u[i] ∈ (eigenvectors.zip eigenvalues).enum :=
      hperm.mem_iff.1 (List.getElem_mem h)
    rcases hx : u[i] with ⟨k, q⟩
    rw [hx] at hm
    have hm' := List.mem_enumFrom hm
    have hk : k < eigenvalues.length := by
      have h2 := hm'.2.1
      rw [hzl] at h2
      omega
    have hkz : k < (eigenvectors.zip eigenvalues).length := by rw [hzl]; exact hk
    have hq : q = (eigenvectors.zip eigenvalues)[k] := by
      have h2 := hm'.2.2
      simpa using h2
    have hb1 : k < eigenvectors.length := by rw [hlen]; exact hk
    refine ⟨hk, ?_, ?_⟩
    · rw [List.getD_eq_getElem _ _ hb1, hq, List.getElem_zip]
    · rw [List.getD_eq_getElem _ _ hk, hq, List.getElem_zip]
  have hinj : Function.Injective (fun i : Fin eigenvalues.length =>
      (⟨(u.get ⟨(i : ℕ), hiu i⟩).1, (key i (hiu i)).1⟩ : Fin eigenvalues.length)) := by
    intro i j hij
    have hval : (u.get ⟨(i : ℕ), hiu i⟩).1 = (u.get ⟨(j : ℕ), hiu j⟩).1 :=
      congrArg Fin.val hij
    have hnd : (u.map Prod.fst).Nodup := by
      have hpm := hperm.map Prod.fst
      rw [List.enum_map_fst] at hpm
      exact hpm.nodup_iff.2 (List.nodup_range _)
    have hgi : (i : ℕ) < (u.map Prod.fst).length := by
      rw [List.length_map]; exact hiu i
    have hgj : (j : ℕ) < (u.map Prod.fst).length := by
      rw [List.length_map]; exact hiu j
    have hinj := List.nodup_iff_injective_get.1 hnd
    have hm1 : (u.map Prod.fst).get ⟨i, hgi⟩ = (u.map Prod.fst).get ⟨j, hgj⟩ := by
      simp only [List.get_eq_getElem, List.getElem_map]
      exact hval
    have h2 := hinj hm1
    have hval2 : (i : ℕ) = (j : ℕ) := by simpa using congrArg Fin.val h2
    exact Fin.ext hval2
  refine ⟨_, ⟨hinj, Finite.injective_iff_surjective.1 hinj⟩, ?_⟩
  intro i
  have hil : (i : ℕ) < (u.map fun p => eigColumn p.2).length := by
    rw [List.length_map, hul]; exact i.2
  rw [heq, List.getD_eq_getElem _ _ hil, List.getElem_map]
  have hkey := key i (hiu i)
  rw [eigColumn]
  exact congrArg₂ (fun a b => a ++ [b]) hkey.2.1 hkey.2.2

/-- Concrete instantiation of `C6_sort_eig_preserves_pairing`, discharging its
shape hypotheses at a two-mode input. -/
theorem C6_sort_eig_preserves_pairing_witness :
    ∃ σ : Fin ([⟨3, 1⟩, ⟨2, 4⟩] : List Cplx).length
        → Fin ([⟨3, 1⟩, ⟨2, 4⟩] : List Cplx).length,
      Function.Bijective σ
        ∧ ∀ i : Fin ([⟨3, 1⟩, ⟨2, 4⟩] : List Cplx).length,
            (sort_eig [⟨3, 1⟩, ⟨2, 4⟩] [[⟨1, 0⟩, ⟨0, 0⟩], [⟨0, 0⟩, ⟨1, 0⟩]]).getD i []
              = ([[⟨1, 0⟩, ⟨0, 0⟩], [⟨0, 0⟩, ⟨1, 0⟩]] : List (List Cplx)).getD (σ i) []
                  ++ [([⟨3, 1⟩, ⟨2, 4⟩] : List Cplx).getD (σ i) ⟨0, 0⟩] :=
  C6_sort_eig_preserves_pairing [⟨3, 1⟩, ⟨2, 4⟩]
    [[⟨1, 0⟩, ⟨0, 0⟩], [⟨0, 0⟩, ⟨1, 0⟩]] (by decide) (by decide)

theorem maskRow_length (check : List Bool) (row : List (Option Cplx)) :
    (maskRow check row).length = row.length := by
  simp [maskRow]

theorem maskRow_getD_true (check : List Bool) (row : List (Option Cplx)) (i : ℕ)
    (h : check.getD i true = true) :
    (maskRow check row).getD i none = row.getD i none := by
  rw [List.getD_eq_getElem?_getD] at h
  rw [maskRow, List.getD_eq_getElem?_getD, List.getElem?_mapIdx,
    List.getD_eq_getElem?_getD]
  cases hx : row[i]? with
  | none => simp [hx]
  | some x => simp [hx, h]

theorem maskRow_getD_false (check : List Bool) (row : List (Option Cplx)) (i : ℕ)
    (hi : i < row.length) (h : check.getD i true = false) :
    (maskRow check row).getD i none = none := by
  rw [List.getD_eq_getElem?_getD] at h
  rw [maskRow, List.getD_eq_getElem?_getD, List.getElem?_mapIdx,
    List.getElem?_eq_getElem hi]
  simp [h]

theorem maskQty_length (check : List Bool) (q : List (Option ℚ)) :
    (maskQty check q).length = q.length := by
  simp [maskQty]

theorem maskQty_getD_true (check : List Bool) (q : List (Option ℚ)) (i : ℕ)
    (h : check.getD i true = true) :
    (maskQty check q).getD i none = q.getD i none := by
  rw [List.getD_eq_getElem?_getD] at h
  rw [maskQty, List.getD_eq_getElem?_getD, List.getElem?_mapIdx,
    List.getD_eq_getElem?_getD]
  cases hx : q[i]? with
  | none => simp [hx]
  | some x => simp [hx, h]

theorem maskQty_getD_false (check : List Bool) (q : List (Option ℚ)) (i : ℕ)
    (hi : i < q.length) (h : check.getD i true = false) :
    (maskQty check q).getD i none = none := by
  rw [List.getD_eq_getElem?_getD] at h
  rw [maskQty, List.getD_eq_getElem?_getD, List.getElem?_mapIdx,
    List.getElem?_eq_getElem hi]
  simp [h]

theorem screening_eig_success (matrix_eig : List (List (Option Cplx)))
    (check : List Bool) (phys_qtys : List (List (Option ℚ)))
    (hm : matrix_eig.length = check.length + 1)
    (hrows : ∀ row ∈ matrix_eig, row.length = check.length)
    (hq : ∀ q ∈ phys_qtys, q.length = check.length) :
    screening_eig matrix_eig check phys_qtys
      = ⟨false, matrix_eig.map (maskRow check), phys_qtys.map (maskQty check)⟩ := by
  have hhead : (matrix_eig.headD []).length = check.length := by
    cases matrix_eig with
    | nil => simp at hm
    | cons r t => exact hrows r (List.mem_cons_self r t)
  rw [screening_eig, hhead]
  rw [if_neg (by push_neg; exact ⟨hm, rfl⟩)]
  rw [if_neg ?hany]
  case hany =>
    rw [Bool.not_eq_true, List.any_eq_false]
    intro q hq'
    simp [hq q hq']

/-- Claim C4.  For every well-shaped input (matrix of `size+1` rows, mask of
length `size`, physical-quantity arrays of length `size`), `screening_eig`
succeeds and overwrites, for exactly the mode indices `i` where the validity
mask is false, entry `i` of every row of the eigenvalue matrix (i.e. the whole
column, all `size+1` rows) and entry `i` of every physical-quantity array with
the nan sentinel, while every entry at an index where the mask is true is
returned unchanged and all array shapes are preserved. -/
theorem C4_screening_eig_masks_invalid_modes
    (matrix_eig : List (List (Option Cplx))) (check : List Bool)
    (phys_qtys : List (List (Option ℚ)))
    (hm : matrix_eig.length = check.length + 1)
    (hrows : ∀ row ∈ matrix_eig, row.length = check.length)
    (hq : ∀ q ∈ phys_qtys, q.length = check.length) :
    (screening_eig matrix_eig check phys_qtys).err = false
      ∧ (screening_eig matrix_eig check phys_qtys).matrix_eig.length = matrix_eig.length
      ∧ (∀ j, ((screening_eig matrix_eig check phys_qtys).matrix_eig.getD j []).length
          = (matrix_eig.getD j []).length)
      ∧ (screening_eig matrix_eig check phys_qtys).phys_qtys.length = phys_qtys.length
      ∧ (∀ k, ((screening_eig matrix_eig check phys_qtys).phys_qtys.getD k []).length
          = (phys_qtys.getD k []).length)
      ∧ (∀ j i, check.getD i true = true →
          ((screening_eig matrix_eig check phys_qtys).matrix_eig.getD j []).getD i none
            = (matrix_eig.getD j []).getD i none)
      ∧ (∀ j i, j < matrix_eig.length → i < check.length → check.getD i true = false →
          ((screening_eig matrix_eig check phys_qtys).matrix_eig.getD j []).getD i none
            = none)
      ∧ (∀ k i, check.getD i true = true →
          ((screening_eig matrix_eig check phys_qtys).phys_qtys.getD k []).getD i none
            = (phys_qtys.getD k []).getD i none)
      ∧ (∀ k i, k < phys_qtys.length → i < check.length → check.getD i true = false →
          ((screening_eig matrix_eig check phys_qtys).phys_qtys.getD k []).getD i none
            = none) := by
  rw [screening_eig_success matrix_eig check phys_qtys hm hrows hq]
  refine ⟨rfl, by simp, ?_, by simp, ?_, ?_, ?_, ?_, ?_⟩
  · intro j
    by_cases hj : j < matrix_eig.length
    · rw [List.getD_eq_getElem _ _ (by simpa using hj), List.getElem_map,
        List.getD_eq_getElem _ _ hj, maskRow_length]
    · rw [List.getD_eq_default _ _ (by simpa using Nat.le_of_not_lt hj),
        List.getD_eq_default _ _ (Nat.le_of_not_lt hj)]
  · intro k
    by_cases hk : k < phys_qtys.length
    · rw [List.getD_eq_getElem _ _ (by simpa using hk), List.getElem_map,
        List.getD_eq_getElem _ _ hk, maskQty_length]
    · rw [List.getD_eq_default _ _ (by simpa using Nat.le_of_not_lt hk),
        List.getD_eq_default _ _ (Nat.le_of_not_lt hk)]
  · intro j i hc
    by_cases hj : j < matrix_eig.length
    · have e1 : (List.map (maskRow check) matrix_eig).getD j []
          = maskRow check (matrix_eig[j]) := by
        rw [List.getD_eq_getElem _ _ (by simpa using hj), List.getElem_map]
      have e2 : matrix_eig.getD j [] = matrix_eig[j] := List.getD_eq_getElem _ _ hj
      show ((List.map (maskRow check) matrix_eig).getD j []).getD i none
          = (matrix_eig.getD j []).getD i none
      rw [e1, e2, maskRow_getD_true _ _ _ hc]
    · have e1 : (List.map (maskRow check) matrix_eig).getD j [] = [] :=
        List.getD_eq_default _ _ (by simpa using Nat.le_of_not_lt hj)
      have e2 : matrix_eig.getD j [] = [] :=
        List.getD_eq_default _ _ (Nat.le_of_not_lt hj)
      show ((List.map (maskRow check) matrix_eig).getD j []).getD i none
          = (matrix_eig.getD j []).getD i none
      rw [e1, e2]
  · intro j i hj hi hc
    have e1 : (List.map (maskRow check) matrix_eig).getD j []
        = maskRow check (matrix_eig[j]) := by
      rw [List.getD_eq_getElem _ _ (by simpa using hj), List.getElem_map]
    show ((List.map (maskRow check) matrix_eig).getD j []).getD i none = none
    rw [e1, maskRow_getD_false _ _ _
      (by rw [hrows (matrix_eig[j]) (List.getElem_mem hj)]; exact hi) hc]
  · intro k i hc
    by_cases hk : k < phys_qtys.length
    · have e1 : (List.map (maskQty check) phys_qtys).getD k []
          = maskQty check (phys_qtys[k]) := by
        rw [List.getD_eq_getElem _ _ (by simpa using hk), List.getElem_map]
      have e2 : phys_qtys.getD k [] = phys_qtys[k] := List.getD_eq_getElem _ _ hk
      show ((List.map (maskQty check) phys_qtys).getD k []).getD i none
          = (phys_qtys.getD k []).getD i none
      rw [e1, e2, maskQty_getD_true _ _ _ hc]
    · have e1 : (List.map (maskQty check) phys_qtys).getD k [] = [] :=
        List.getD_eq_default _ _ (by simpa using Nat.le_of_not_lt hk)
      have e2 : phys_qtys.getD k [] = [] :=
        List.getD_eq_default _ _ (Nat.le_of_not_lt hk)
      show ((List.map (maskQty check) phys_qtys).getD k []).getD i none
          = (phys_qtys.getD k []).getD i none
      rw [e1, e2]
  · intro k i hk hi hc
    have e1 : (List.map (maskQty check) phys_qtys).getD k []
        = maskQty check (phys_qtys[k]) := by
      rw [List.getD_eq_getElem _ _ (by simpa using hk), List.getElem_map]
    show ((List.map (maskQty check) phys_qtys).getD k []).getD i none = none
    rw [e1, maskQty_getD_false _ _ _
      (by rw [hq (phys_qtys[k]) (List.getElem_mem hk)]; exact hi) hc]

/-- Claim C5, amended.  `screening_eig` fails if and only if the eigenvalue
matrix does not have `cols + 1` rows, or the validity mask does not have
length `cols`, or some physical-quantity array does not have length `cols`,
where `cols` is the matrix column count `matrix_eig.shape[1]` (the code
measures every shape against the column count, not against the mask length);
and whenever it fails, no input array has been mutated. -/
theorem C5_screening_eig_error_iff (matrix_eig : List (List (Option Cplx)))
    (check : List Bool) (phys_qtys : List (List (Option ℚ))) :
    ((screening_eig matrix_eig check phys_qtys).err = true
        ↔ (matrix_eig.length ≠ (matrix_eig.headD []).length + 1
            ∨ check.length ≠ (matrix_eig.headD []).length
            ∨ ∃ q ∈ phys_qtys, q.length ≠ (matrix_eig.headD []).length))
      ∧ ((screening_eig matrix_eig check phys_qtys).err = true →
          (screening_eig matrix_eig check phys_qtys).matrix_eig = matrix_eig
            ∧ (screening_eig matrix_eig check phys_qtys).phys_qtys = phys_qtys) := by
  by_cases h1 : matrix_eig.length ≠ (matrix_eig.headD []).length + 1
      ∨ check.length ≠ (matrix_eig.headD []).length
  · rw [screening_eig, if_pos h1]
    exact ⟨⟨fun _ => by tauto, fun _ => rfl⟩, fun _ => ⟨rfl, rfl⟩⟩
  · by_cases h2 : phys_qtys.any
        (fun q => decide (q.length ≠ (matrix_eig.headD []).length)) = true
    · rw [screening_eig, if_neg h1, if_pos h2]
      refine ⟨⟨fun _ => ?_, fun _ => rfl⟩, fun _ => ⟨rfl, rfl⟩⟩
      right; right
      obtain ⟨q, hqmem, hqlen⟩ := List.any_eq_true.1 h2
      exact ⟨q, hqmem, of_decide_eq_true hqlen⟩
    · rw [screening_eig, if_neg h1, if_neg h2]
      refine ⟨⟨fun hfalse => by simp at hfalse, fun hcond => ?_⟩, fun hfalse => by simp at hfalse⟩
      push_neg at h1
      rcases hcond with hc | hc | ⟨q, hqmem, hqlen⟩
      · exact absurd h1.1 hc
      · exact absurd h1.2 hc
      · rw [Bool.not_eq_true, List.any_eq_false] at h2
        exact absurd (decide_eq_true hqlen) (h2 q hqmem)

/-- Claim C5, counterexample.  A 3-row, 3-column matrix with a mask of length
2 satisfies the claim's stated success condition (`rows = len(mask) + 1` and no
physical quantities), yet the code aborts, because it compares every shape
against the matrix column count (3), not the mask length: the claimed
"if and only if" is false. -/
theorem C5_counterexample :
    (screening_eig
        [[some ⟨1, 0⟩, some ⟨1, 0⟩, some ⟨1, 0⟩],
         [some ⟨1, 0⟩, some ⟨1, 0⟩, some ⟨1, 0⟩],
         [some ⟨1, 0⟩, some ⟨1, 0⟩, some ⟨1, 0⟩]] [true, false] []).err = true
      ∧ ¬ (([[some ⟨1, 0⟩, some ⟨1, 0⟩, some ⟨1, 0⟩],
             [some ⟨1, 0⟩, some ⟨1, 0⟩, some ⟨1, 0⟩],
             [some ⟨1, 0⟩, some ⟨1, 0⟩, some ⟨1, 0⟩]] :
              List (List (Option Cplx))).length ≠ ([true, false] : List Bool).length + 1
          ∨ ∃ q ∈ ([] : List (List (Option ℚ))),
              q.length ≠ ([true, false] : List Bool).length) := by
  refine ⟨by decide, by decide⟩

/-- Concrete instantiation of `C4_screening_eig_masks_invalid_modes` at the
spec's end-to-end example (`size = 3`, eigenvalues `[1, 2, 3]`, mask
`[true, false, true]`, one physical-quantity array), discharging its shape
hypotheses. -/
theorem C4_screening_eig_masks_invalid_modes_witness :
    (([[some ⟨1, 0⟩, some ⟨0, 0⟩, some ⟨0, 0⟩],
       [some ⟨0, 0⟩, some ⟨1, 0⟩, some ⟨0, 0⟩],
       [some ⟨0, 0⟩, some ⟨0, 0⟩, some ⟨1, 0⟩],
       [some ⟨1, 0⟩, some ⟨2, 0⟩, some ⟨3, 0⟩]] :
        List (List (Option Cplx))).length = ([true, false, true] : List Bool).length + 1)
      ∧ (screening_eig
          [[some ⟨1, 0⟩, some ⟨0, 0⟩, some ⟨0, 0⟩],
           [some ⟨0, 0⟩, some ⟨1, 0⟩, some ⟨0, 0⟩],
           [some ⟨0, 0⟩, some ⟨0, 0⟩, some ⟨1, 0⟩],
           [some ⟨1, 0⟩, some ⟨2, 0⟩, some ⟨3, 0⟩]]
          [true, false, true] [[some 10, some 20, some 30]]).err = false :=
  ⟨by decide,
    (C4_screening_eig_masks_invalid_modes
      [[some ⟨1, 0⟩, some ⟨0, 0⟩, some ⟨0, 0⟩],
       [some ⟨0, 0⟩, some ⟨1, 0⟩, some ⟨0, 0⟩],
       [some ⟨0, 0⟩, some ⟨0, 0⟩, some ⟨1, 0⟩],
       [some ⟨1, 0⟩, some ⟨2, 0⟩, some ⟨3, 0⟩]]
      [true, false, true] [[some 10, some 20, some 30]]
      (by decide) (by decide) (by decide)).1⟩

/-- Concrete instantiation of `C5_screening_eig_error_iff`: at an empty input
the failure condition holds, the function aborts, and the arrays are returned
unmutated. -/
theorem C5_screening_eig_error_iff_witness :
    (screening_eig [] [] []).err = true
      ∧ (screening_eig [] [] []).matrix_eig = []
      ∧ (screening_eig [] [] []).phys_qtys = [] :=
  ⟨(C5_screening_eig_error_iff [] [] []).1.mpr (by decide),
    ((C5_screening_eig_error_iff [] [] []).2
      ((C5_screening_eig_error_iff [] [] []).1.mpr (by decide))).1,
    ((C5_screening_eig_error_iff [] [] []).2
      ((C5_screening_eig_error_iff [] [] []).1.mpr (by decide))).2⟩

/-- Claim C2.  The Heinrichs basis value is finite at both endpoints (it
evaluates to `0` there), but the first derivative is NOT: `heinrichs_d`
evaluates `chebyshev_d`, which divides by `sin(acos(±1)) = 0`, so at `s = 1`
and `s = -1` the code computes `0 * (0/0)`, a nan (modelled by `none`), for
every degree.  The claim's first-derivative half therefore fails on the code,
while analytically `(1-s²)·T_n(s)` has the finite derivative `-2·T_n(1)` at
`s = 1`: the code, not the claim, is at fault. -/
theorem C2_heinrichs_endpoints (n_degree : ℕ) :
    heinrichs n_degree 1 = 0
      ∧ heinrichs n_degree (-1) = 0
      ∧ heinrichs_d n_degree 1 = none
      ∧ heinrichs_d n_degree (-1) = none := by
  refine ⟨?_, ?_, ?_, ?_⟩
  · norm_num [heinrichs]
  · norm_num [heinrichs]
  · simp [heinrichs_d, chebyshev_d, Real.arccos_one, Real.sin_zero]
  · simp [heinrichs_d, chebyshev_d, Real.arccos_neg_one, Real.sin_pi]

/-- Claim C8.  For every coordinate built by `init_complex_coordinate`,
`check_spectral_deform` returns true exactly when at least one of `alpha`,
`beta_0`, `beta_1` is nonzero. -/
theorem C8_check_spectral_deform_iff (y_start y_end alpha beta_0 beta_1 : ℝ) :
    (check_spectral_deform (init_complex_coordinate y_start y_end alpha beta_0 beta_1)
        = true)
      ↔ (alpha ≠ 0 ∨ beta_0 ≠ 0 ∨ beta_1 ≠ 0) := by
  simp [check_spectral_deform, init_complex_coordinate]

/-- Claim C9.  On a `BackgroundField` constructed with a value function and a
first-derivative function but no second derivative, `r_value` and `r_value_d`
succeed at every real numeric argument (float or int), returning the real part
of the corresponding function at `complex(x, 0)`, while `r_value_d2` fails
with the attribute-not-set abort (the spec's `DerivativeNotConfigured`)
exactly when the second-derivative accessor is invoked — construction and the
other two accessors never fail. -/
theorem C9_background_field_missing_second_derivative
    (name : String) (tex : Option String) (fv fd : ℂ → ℂ) (x : ℝ) (n : ℤ) :
    ((mkBackgroundField name fv (some fd) none tex).r_value (.pfloat x)
        = .ok (fv (x : ℂ)).re)
      ∧ ((mkBackgroundField name fv (some fd) none tex).r_value_d (.pfloat x)
          = .ok (fd (x : ℂ)).re)
      ∧ ((mkBackgroundField name fv (some fd) none tex).r_value_d2 (.pfloat x)
          = .error .attributeNotSet)
      ∧ ((mkBackgroundField name fv (some fd) none tex).r_value (.pint n)
          = .ok (fv (n : ℂ)).re)
      ∧ ((mkBackgroundField name fv (some fd) none tex).r_value_d (.pint n)
          = .ok (fd (n : ℂ)).re)
      ∧ ((mkBackgroundField name fv (some fd) none tex).r_value_d2 (.pint n)
          = .error .attributeNotSet) :=
  ⟨rfl, rfl, rfl, rfl, rfl, rfl⟩

/-- Claim C10.  The `isinstance(x, (float, int))` check of `r_value`,
`r_value_d` and `r_value_d2` accepts exactly float and int instances: every
complex argument — including one with zero imaginary part — aborts with the
invalid-argument-type error regardless of which derivatives are configured,
while a bool argument (an int subclass in Python) is accepted and evaluated
as `0` or `1`. -/
theorem C10_argument_type_check (f : BackgroundField) (a b x : ℝ) (n : ℤ) (bo : Bool) :
    PyValue.isRealNumber (.pcomplex a b) = false
      ∧ f.r_value (.pcomplex a b) = .error .invalidArgumentType
      ∧ f.r_value_d (.pcomplex a b) = .error .invalidArgumentType
      ∧ f.r_value_d2 (.pcomplex a b) = .error .invalidArgumentType
      ∧ f.r_value (.pcomplex a 0) = .error .invalidArgumentType
      ∧ PyValue.isRealNumber (.pbool bo) = true
      ∧ f.r_value (.pbool bo) = .ok (f.value (if bo then 1 else 0)).re
      ∧ PyValue.isRealNumber (.pfloat x) = true
      ∧ PyValue.isRealNumber (.pint n) = true
      ∧ f.r_value (.pfloat x) = .ok (f.value (x : ℂ)).re
      ∧ f.r_value (.pint n) = .ok (f.value (n : ℂ)).re :=
  ⟨rfl, rfl, rfl, rfl, rfl, rfl, rfl, rfl, rfl, rfl, rfl⟩

/-- Claim C7.  The coordinate built by `init_complex_coordinate` satisfies
`value(s) = y_start + (y_end - y_start)(s+1)/2
- (alpha + i)(beta_0 + beta_1 s)(s² - 1)`; its stored `value_d` and
`value_d2` are exactly `y_complex_d` and `y_complex_d2`, which are the true
first and second complex derivatives of the value map (as `HasDerivAt`
facts); and with `alpha = beta_0 = beta_1 = 0` the value map is the affine
interpolation. -/
theorem C7_init_complex_coordinate_exact
    (y_start y_end alpha beta_0 beta_1 : ℝ) (s_pos : ℂ) :
    (init_complex_coordinate y_start y_end alpha beta_0 beta_1).value s_pos
        = y_start + (y_end - y_start) * (s_pos + 1) / 2
          - (alpha + Complex.I) * (beta_0 + beta_1 * s_pos) * (s_pos ^ 2 - 1)
      ∧ (init_complex_coordinate y_start y_end alpha beta_0 beta_1).value_d
          = some (y_complex_d y_start y_end alpha beta_0 beta_1)
      ∧ (init_complex_coordinate y_start y_end alpha beta_0 beta_1).value_d2
          = some (y_complex_d2 y_start y_end alpha beta_0 beta_1)
      ∧ HasDerivAt (y_complex y_start y_end alpha beta_0 beta_1)
          (y_complex_d y_start y_end alpha beta_0 beta_1 s_pos) s_pos
      ∧ HasDerivAt (y_complex_d y_start y_end alpha beta_0 beta_1)
          (y_complex_d2 y_start y_end alpha beta_0 beta_1 s_pos) s_pos
      ∧ y_complex y_start y_end 0 0 0 s_pos
          = y_start + (y_end - y_start) * (s_pos + 1) / 2 := by
  refine ⟨rfl, rfl, rfl, ?_, ?_, ?_⟩
  · have h1 := ((((hasDerivAt_id s_pos).add_const (1 : ℂ)).const_mul
      ((y_end : ℂ) - y_start)).div_const 2).const_add (y_start : ℂ)
    have hu := (((hasDerivAt_id s_pos).const_mul (beta_1 : ℂ)).const_add
      (beta_0 : ℂ)).const_mul ((alpha : ℂ) + Complex.I)
    have hv := (hasDerivAt_pow 2 s_pos).sub_const (1 : ℂ)
    have h := h1.sub (hu.mul hv)
    convert h using 1
    simp only [y_complex_d, id_eq]
    push_cast
    ring
  · have hin := ((((hasDerivAt_pow 2 s_pos).const_mul (3 : ℂ)).sub_const
      (1 : ℂ)).const_mul (beta_1 : ℂ)).add
      ((hasDerivAt_id s_pos).const_mul (2 * (beta_0 : ℂ)))
    have h := (hasDerivAt_const s_pos (((y_end : ℂ) - y_start) / 2)).sub
      (hin.const_mul ((alpha : ℂ) + Complex.I))
    convert h using 1
    simp only [y_complex_d2, id_eq]
    push_cast
    ring
  · simp only [y_complex]
    push_cast
    ring
